import Mathlib

/-!
Verification of the reference-resolution and range-evaluation engine of the
clinical data analyser.

The embedding models the TypeScript sources
`src/utils/comparisonHelpers.ts` and `src/utils/referenceMatcher.ts` as pure
Lean functions:

- JavaScript strings are Lean `String` values (operations are carried out on
  `String.data : List Char`); `String.prototype.toLowerCase` is modelled by
  `Char.toLower` per character (adequate for the ASCII data handled here),
  `trim` drops the usual whitespace characters at both ends, and the regex
  character class `\s` is modelled by the same whitespace set.
- JavaScript numbers are modelled by `ℚ`; the decimal tokens produced by
  `parseFloat` on the matched groups are translated exactly into rationals.
- The union type `string | number` is modelled by `StrOrNum`; possibly
  `undefined` record fields (accessed with `?.` in the source) are `Option`s.
- A JavaScript `Map` (insertion ordered, distinct keys) is modelled by an
  association list; `Map.get` is `mapGet`, `Map.keys` is `List.map Prod.fst`.
- `Array.prototype.sort` with the comparators of the source (all of which
  induce a total order on the distinct keys being sorted, with
  `localeCompare` modelled as code-point comparison) is modelled by a simple
  insertion sort with the comparator-induced `≤`.
-/

/-! ## String utilities -/

/-- Whitespace, as trimmed by `String.prototype.trim` and matched by the
regex class `\s` (restricted to the characters relevant for this data). -/
def isSpaceChar (c : Char) : Bool :=
  c = ' ' || c = '\t' || c = '\n' || c = '\r' || c = '\x0b' || c = '\x0c' ||
  c = '\u00A0'

/-- Trim whitespace from both ends of a character list. -/
def trimL (l : List Char) : List Char :=
  ((l.dropWhile isSpaceChar).reverse.dropWhile isSpaceChar).reverse

/-- `String.prototype.trim`. -/
def trimS (s : String) : String := String.mk (trimL s.data)

/-- `String.prototype.toLowerCase` (ASCII). -/
def lowerS (s : String) : String := String.mk (s.data.map Char.toLower)

/-- The regex test `/\d/.test(s)`: does the string contain a digit? -/
def hasDigitS (s : String) : Bool := s.data.any Char.isDigit

/-- Does `hay` start with `needle`? -/
def startsWithL : List Char → List Char → Bool
  | _, [] => true
  | [], _ :: _ => false
  | h :: hs, n :: ns => h == n && startsWithL hs ns

/-- `String.prototype.includes`, on character lists: `needle` occurs
somewhere in `hay`. -/
def containsSub : List Char → List Char → Bool
  | [], needle => needle.isEmpty
  | c :: hs, needle => startsWithL (c :: hs) needle || containsSub hs needle

/-- `s.includes(sub)`. -/
def containsS (s sub : String) : Bool := containsSub s.data sub.data

/-- Insertion of an element into a sorted list (helper for the sort model). -/
def insertSorted (le : α → α → Bool) (x : α) : List α → List α
  | [] => [x]
  | y :: ys => if le x y then x :: y :: ys else y :: insertSorted le x ys

/-- Model of `Array.prototype.sort` for the total-order comparators used in
the source: insertion sort by the comparator-induced `≤`. -/
def insertionSort (le : α → α → Bool) : List α → List α
  | [] => []
  | x :: xs => insertSorted le x (insertionSort le xs)

/-- Code-point comparison of strings, the model of `localeCompare`. -/
def strLtL : List Char → List Char → Bool
  | [], [] => false
  | [], _ :: _ => true
  | _ :: _, [] => false
  | a :: as, b :: bs => if a == b then strLtL as bs else decide (a.toNat < b.toNat)

/-! ## Numeric token parsing

The leading-number regex `[+-]?\d*\.?\d+` (used anchored at the start in
`extractNumericValue` and for both groups of the range regex in `parseRange`)
is modelled by `tokenParse`, which consumes an optional sign, a greedy run of
digits, and an optional fraction part `.` followed by at least one digit; it
reproduces the regex backtracking behaviour (a trailing lone dot is left
unconsumed, and a match requires at least one digit overall). The value of the
matched token under `parseFloat` is returned exactly as a rational. -/

/-- Numeric value of a digit string (most significant first). -/
def digitsVal (ds : List Char) : ℕ :=
  ds.foldl (fun acc c => 10 * acc + (c.toNat - '0'.toNat)) 0

/-- The rational `mant / 10 ^ pow`, negated when `neg` is set: the exact
value `parseFloat` assigns to a matched decimal token. Built with `mkRat`
(rather than `ℚ` field operations) so that concrete runs of the parser
reduce inside `decide`. -/
def decimalQ (neg : Bool) (mant : ℕ) (pow : ℕ) : ℚ :=
  if neg then mkRat (-(mant : ℤ)) (10 ^ pow) else mkRat (mant : ℤ) (10 ^ pow)

/-- The sign-free part of the leading-number regex `\d*\.?\d+`: a maximal
run of digits, then optionally a dot followed by a maximal nonempty run of
digits (a dot not followed by a digit is left unmatched, mirroring the regex
backtracking); at least one digit is required overall. -/
def tokenParseCore (neg : Bool) (l1 : List Char) : Option (ℚ × List Char) :=
  let ds1 := l1.takeWhile Char.isDigit
  let r1 := l1.dropWhile Char.isDigit
  match r1 with
  | '.' :: r2 =>
    let ds2 := r2.takeWhile Char.isDigit
    if ds2.isEmpty then
      if ds1.isEmpty then none else some (decimalQ neg (digitsVal ds1) 0, r1)
    else
      some (decimalQ neg (digitsVal ds1 * 10 ^ ds2.length + digitsVal ds2) ds2.length,
            r2.dropWhile Char.isDigit)
  | _ => if ds1.isEmpty then none else some (decimalQ neg (digitsVal ds1) 0, r1)

/-- Match the regex `[+-]?\d*\.?\d+` at the start of `l`; return the value
of the matched token (as `parseFloat` would parse it) and the unmatched
remainder, or `none` when the regex does not match. -/
def tokenParse (l : List Char) : Option (ℚ × List Char) :=
  let neg := l.head? == some '-'
  let l1 : List Char :=
    if l.head? == some '+' || l.head? == some '-' then l.tail else l
  tokenParseCore neg l1

/-! ## comparisonHelpers.ts -/

/-- The union type `string | number` of the observation values. -/
inductive StrOrNum where
  | str (s : String)
  | num (q : ℚ)
deriving DecidableEq, Repr

/-- `extractNumericValue` from `src/utils/comparisonHelpers.ts`: a number is
returned as-is; a string is matched against `/^([+-]?\d*\.?\d+)/` (no
trimming) and the first captured group is parsed. -/
def extractNumericValue : StrOrNum → Option ℚ
  | .num q => some q
  | .str s => (tokenParse s.data).map (·.1)

/-- Strip commas and normalize the en-dash (the only dash the source
replaces) to a hyphen: `range.replace(/,/g, '').replace(/–/g, '-')`. -/
def cleanRangeL (l : List Char) : List Char :=
  (l.filter (fun c => !(c == ','))).map (fun c => if c = '–' then '-' else c)

/-- The body of `parseRange` after cleaning: match
`/^([+-]?\d*\.?\d+)\s*-\s*([+-]?\d*\.?\d+)$/` and return the two captured
numbers in source order. -/
def parseRangeCleaned (c : List Char) : Option (ℚ × ℚ) :=
  match tokenParse c with
  | none => none
  | some (v₁, r1) =>
    match r1.dropWhile isSpaceChar with
    | '-' :: r3 =>
      match tokenParse (r3.dropWhile isSpaceChar) with
      | some (v₂, []) => some (v₁, v₂)
      | some (_, _ :: _) => none
      | none => none
    | _ => none

/-- `parseRange` from `src/utils/comparisonHelpers.ts`. The `isNaN` guard of
the source is vacuous for matched groups and has no counterpart here. -/
def parseRange (range : String) : Option (ℚ × ℚ) :=
  parseRangeCleaned (cleanRangeL range.data)

/-- `isWithinRange` from `src/utils/comparisonHelpers.ts`. -/
def isWithinRange (value : StrOrNum) (range : String) : Bool :=
  match extractNumericValue value, parseRange range with
  | some v, some (mn, mx) => decide (mn ≤ v) && decide (v ≤ mx)
  | _, _ => false

/-- `matchesString` from `src/utils/comparisonHelpers.ts`. Values reach this
function already stringified (`value.toString()`), so the model takes the
string form. -/
def matchesString (value : String) (expected : String) : Bool :=
  let stringValue := lowerS (trimS value)
  let expectedValue := lowerS (trimS expected)
  if containsS stringValue "+/-" || containsS stringValue "negative +/-" then
    expectedValue == "negative"
  else
    stringValue == expectedValue

example : extractNumericValue (.str "8187.7 cells/mm³") = some (mkRat 81877 10) := by decide
example : extractNumericValue (.str "cells 8187.7") = none := by decide
example : extractNumericValue (.str " 5") = none := by decide
example : parseRange "4,000 - 11,000" = some ((4000 : ℚ), (11000 : ℚ)) := by decide
example : parseRange "13.8-17.2" = some (mkRat 138 10, mkRat 172 10) := by decide
example : parseRange "17.2-13.8" = some (mkRat 172 10, mkRat 138 10) := by decide
example : parseRange "13.8–17.2" = some (mkRat 138 10, mkRat 172 10) := by decide
example : parseRange "13.8—17.2" = none := by decide
example : isWithinRange (.str "8187.7 cells/mm³") "4,000 - 11,000" = true := by decide
example : matchesString "+/-" "Negative" = true := by decide
example : matchesString "Negative" "+/-" = false := by decide

/-! ## Data model (types.ts)

`PatientDataRow` and `ReferenceDataRow` are modelled with the fields the
matching logic reads. The source declares them as required strings, but the
matcher accesses each with the optional-chaining operator, so runtime rows
may lack them; the model therefore uses `Option String` (`none` = the field
is `undefined`). Extra passthrough spreadsheet columns take no part in the
logic and are not modelled. -/

structure PatientDataRow where
  LBTEST : Option String
  LBORRES : Option String
  Gender : Option String
deriving DecidableEq, Repr

structure ReferenceDataRow where
  Parameter : String
  NormalRange : Option String
  GenderNotes : Option String
deriving DecidableEq, Repr

/-- The reference index: a JavaScript `Map` from test-name key to the rows
under that key, modelled as an insertion-ordered association list with
distinct keys. -/
abbrev RefMap := List (String × List ReferenceDataRow)

/-- `Map.get`: the entry list of `k`, or `none` when the key is absent. -/
def mapGet (m : RefMap) (k : String) : Option (List ReferenceDataRow) :=
  (m.find? (fun e => e.1 == k)).map (·.2)

/-! ## referenceMatcher.ts -/

/-- Normalized gender of a reference row:
`r['Gender/Notes']?.toString().trim().toLowerCase()`. -/
def genderNorm (r : ReferenceDataRow) : Option String :=
  r.GenderNotes.map (fun s => lowerS (trimS s))

/-- `selectBestGenderMatch` from `src/utils/referenceMatcher.ts`: first row
with an exact (normalized) gender match, else first row whose gender
normalizes to "both", else the first row; `none` on the empty list. -/
def selectBestGenderMatch (references : List ReferenceDataRow)
    (patientGender : Option String) : Option ReferenceDataRow :=
  match references with
  | [] => none
  | r0 :: _ =>
    match references.find? (fun r => genderNorm r == patientGender) with
    | some r => some r
    | none =>
      match references.find? (fun r => genderNorm r == some "both") with
      | some r => some r
      | none => some r0

/-- Does a range expression look numeric: it contains a digit and contains
neither "negative" nor "positive" (case-insensitively)? The source reads
`option.ref['Normal Range']?.toString() || ''`. -/
def isNumericRange (range : Option String) : Bool :=
  let s := range.getD ""
  hasDigitS s && !containsS (lowerS s) "negative" && !containsS (lowerS s) "positive"

/-- The key-tagged reference rows of one key, as pushed onto `allRefOptions`
by the source. -/
def optionsFor (m : RefMap) (k : String) : List (String × ReferenceDataRow) :=
  ((mapGet m k).getD []).map (fun r => (k, r))

/-- Model of the `forEach`-push loop collecting the options of several keys. -/
def concatOptions (m : RefMap) : List String → List (String × ReferenceDataRow)
  | [] => []
  | k :: ks => optionsFor m k ++ concatOptions m ks

/-- The "better alternatives" of an exact match: keys whose lowercase form
contains the lowercase test name while differing from it. -/
def altsOf (allKeys : List String) (tl : String) : List String :=
  allKeys.filter (fun k => containsS (lowerS k) tl && !(lowerS k == tl))

/-- The numeric-range options among the exact match's rows followed by all
override-key rows (source lines 58-86). -/
def numericOptionsOf (m : RefMap) (em : String) (allKeys : List String)
    (tl : String) : List (String × ReferenceDataRow) :=
  (optionsFor m em ++ concatOptions m (altsOf allKeys tl)).filter
    (fun o => isNumericRange o.2.NormalRange)

/-- Early-return plumbing: `some res` from a branch models `return res` in
the source; `none` means the branch fell through to the continuation. -/
def orElseRes (a : Option (Option ReferenceDataRow))
    (b : Option ReferenceDataRow) : Option ReferenceDataRow :=
  match a with
  | some res => res
  | none => b

lemma orElseRes_cases {a : Option (Option ReferenceDataRow)}
    {b : Option ReferenceDataRow} {r : ReferenceDataRow}
    (h : orElseRes a b = some r) :
    (∃ res, a = some res ∧ res = some r) ∨ (a = none ∧ b = some r) := by
  cases a with
  | some res => exact Or.inl ⟨res, rfl, h⟩
  | none => exact Or.inr ⟨rfl, h⟩

/-- The special glucose branch inside the better-alternatives block (source
lines 44-56). `some res` models an early `return res`; `none` means the
branch fell through. -/
def glucoseEarly (m : RefMap) (g : Option String) (alts : List String)
    (tl : String) : Option (Option ReferenceDataRow) :=
  if tl == "glucose" || containsS tl "glucose" then
    match alts.find? (fun a => containsS (lowerS a) "fasting") with
    | some fm => (mapGet m fm).map (fun frs => selectBestGenderMatch frs g)
    | none => none
  else none

/-- The numeric-preference branch of the exact-match strategy (source lines
88-99): when the patient value contains a digit and some pooled option has a
numeric range, return the best gender match among the numeric options. -/
def numericEarly (m : RefMap) (g : Option String) (em : String)
    (allKeys : List String) (tl : String) (pval : String) :
    Option (Option ReferenceDataRow) :=
  let nr := numericOptionsOf m em allKeys tl
  if hasDigitS pval && !nr.isEmpty then
    match selectBestGenderMatch (nr.map (·.2)) g with
    | some r => some (some r)
    | none => none
  else none

/-- The final glucose check of the exact-match strategy (source lines
105-123). -/
def finalGlucose (m : RefMap) (g : Option String) (em : String)
    (allKeys : List String) (tl : String) (pval : String) :
    Option (Option ReferenceDataRow) :=
  if (tl == "glucose" || containsS tl "glucose") && hasDigitS pval then
    match allKeys.find? (fun k =>
        containsS (lowerS k) "glucose" && containsS (lowerS k) "fasting") with
    | some fk =>
      if fk == em then none
      else (mapGet m fk).map (fun frs => selectBestGenderMatch frs g)
    | none => none
  else none

/-- Strategy 1 of `findBestReferenceMatch`: the branch taken when an exact
(case-insensitive) key match `em` exists (source lines 30-128). -/
def exactBranch (m : RefMap) (g : Option String) (allKeys : List String)
    (tl : String) (em : String) (pval : String) : Option ReferenceDataRow :=
  let alts := altsOf allKeys tl
  orElseRes (if alts.isEmpty then none else glucoseEarly m g alts tl)
    (orElseRes (if alts.isEmpty then none else numericEarly m g em allKeys tl pval)
      (orElseRes (finalGlucose m g em allKeys tl pval)
        (selectBestGenderMatch ((mapGet m em).getD []) g)))

/-- The specificity comparator of the contains-match sort (source lines
139-152); `localeCompare` is modelled as code-point order. -/
def cmpContains (tl : String) (a b : String) : Int :=
  let aEx := containsS tl (lowerS a)
  let bEx := containsS tl (lowerS b)
  if aEx && !bEx then -1
  else if !aEx && bEx then 1
  else if a.length ≠ b.length then (b.length : Int) - (a.length : Int)
  else if a == b then 0
  else if strLtL a.data b.data then -1 else 1

/-- Strategy 3 of `findBestReferenceMatch`: fixed synonym groups (source
lines 204-244). Each source variation has identical `test` and `ref` lists,
so one list per group suffices. -/
def variationGroups : List (List String) :=
  [["wbc", "white blood cell", "white blood cells"],
   ["albumin", "alb"],
   ["hemoglobin", "hgb", "hb"],
   ["platelet", "platelets", "plt"],
   ["glucose", "glu"],
   ["alt", "sgpt", "alanine aminotransferase"],
   ["ast", "sgot", "aspartate aminotransferase"],
   ["alkaline phosphatase", "alp"]]

/-- Strategy 3: fuzzy matching against the synonym groups, longest key
first. -/
def strategy3 (m : RefMap) (g : Option String) (allKeys : List String)
    (tl : String) : Option ReferenceDataRow :=
  let fms := allKeys.filter (fun k => variationGroups.any (fun grp =>
    grp.any (fun t => containsS tl t) && grp.any (fun r => containsS (lowerS k) r)))
  if fms.isEmpty then none
  else
    let sorted := insertionSort (fun a b => decide (b.length ≤ a.length)) fms
    selectBestGenderMatch ((mapGet m (sorted.headD "")).getD []) g

/-- Strategy 2 of `findBestReferenceMatch`: contains matches sorted by
specificity, with the numeric-preference branch when several keys match
(source lines 130-202); falls back to Strategy 3 when no key matches. -/
def strategy2 (m : RefMap) (g : Option String) (allKeys : List String)
    (tl : String) (pval : String) : Option ReferenceDataRow :=
  let cms := allKeys.filter (fun k =>
    containsS tl (lowerS k) || containsS (lowerS k) tl)
  if cms.isEmpty then strategy3 m g allKeys tl
  else
    let sorted := insertionSort (fun a b => decide (cmpContains tl a b ≤ 0)) cms
    let bestMatch := sorted.headD ""
    orElseRes
      (if 1 < cms.length then
        let nr := (concatOptions m sorted).filter
          (fun o => isNumericRange o.2.NormalRange)
        if hasDigitS pval && !nr.isEmpty then
          match selectBestGenderMatch (nr.map (·.2)) g with
          | some r => some (some r)
          | none => none
        else none
      else none)
      (selectBestGenderMatch ((mapGet m bestMatch).getD []) g)

/-- `findBestReferenceMatch` from `src/utils/referenceMatcher.ts`. The
console logging of the source has no behavioural content and is omitted; the
unused `stringRanges` partitions are likewise dead code. -/
def findBestReferenceMatch (p : PatientDataRow) (m : RefMap) :
    Option ReferenceDataRow :=
  match p.LBTEST with
  | none => none
  | some t0 =>
    let testName := trimS t0
    if testName == "" then none
    else
      let g := p.Gender.map (fun s => lowerS (trimS s))
      let allKeys := m.map (·.1)
      let tl := lowerS testName
      let pval := (p.LBORRES).getD ""
      match allKeys.find? (fun k => lowerS k == tl) with
      | some em => exactBranch m g allKeys tl em pval
      | none => strategy2 m g allKeys tl pval

section SmokeTests

def gRow : ReferenceDataRow :=
  { Parameter := "glucose", NormalRange := some "70-140", GenderNotes := some "Both" }
def fRow : ReferenceDataRow :=
  { Parameter := "glucose (fasting)", NormalRange := some "70 - 100",
    GenderNotes := some "Both" }
def glucoseMap : RefMap := [("glucose", [gRow]), ("glucose (fasting)", [fRow])]

example :
    findBestReferenceMatch
      { LBTEST := some "Glucose", LBORRES := some "11.06", Gender := some "Male" }
      glucoseMap = some fRow := by decide

example :
    findBestReferenceMatch
      { LBTEST := some "serum glucose", LBORRES := some "11.06", Gender := some "Male" }
      glucoseMap = some gRow := by decide

def maleRow : ReferenceDataRow :=
  { Parameter := "X", NormalRange := some "1-2", GenderNotes := some "Male" }
def bothRow : ReferenceDataRow :=
  { Parameter := "X", NormalRange := some "3-4", GenderNotes := some "Both" }

example : selectBestGenderMatch [maleRow, bothRow] (some "female") = some bothRow := by
  decide

def e1Row : ReferenceDataRow :=
  { Parameter := "abc", NormalRange := some "1-2", GenderNotes := some "Female" }
def e2Row : ReferenceDataRow :=
  { Parameter := "abcd", NormalRange := some "3-4", GenderNotes := some "Female" }
def abcMap : RefMap := [("abc", [e1Row]), ("abcd", [e2Row])]

example :
    findBestReferenceMatch
      { LBTEST := some "abc", LBORRES := some "5", Gender := some "female" }
      abcMap = some e1Row := by decide

example :
    findBestReferenceMatch
      { LBTEST := some "WBC", LBORRES := some "8187.7", Gender := some "Male" }
      [("WBC Count", [e1Row])] = some e1Row := by decide

example :
    findBestReferenceMatch
      { LBTEST := some "  ", LBORRES := some "5", Gender := some "Male" }
      glucoseMap = none := by decide

end SmokeTests

/-! ## Definitions modelled from the spec (for refinement comparisons)

These follow the wording of spec.md rather than the source; they exist to
state counterexamples where spec and source diverge. -/

/-- Modelled from the spec: `extractNumeric` (spec 4.1) scans from the start
of the TRIMMED string for a leading numeric token; the source applies no
trim before matching. -/
def extractNumericValueSpec : StrOrNum → Option ℚ
  | .num q => some q
  | .str s => (tokenParse (trimL s.data)).map (·.1)

/-- Modelled from the spec: cleaning step of `parse` (spec 4.2 step 1),
which strips commas and normalizes en-dash AND em-dash to a hyphen; the
source only replaces the en-dash. -/
def cleanRangeSpecL (l : List Char) : List Char :=
  (l.filter (fun c => !(c == ','))).map
    (fun c => if c = '–' || c = '—' then '-' else c)

/-- Modelled from the spec: `parseRange` with the spec cleaning step. -/
def parseRangeSpec (range : String) : Option (ℚ × ℚ) :=
  parseRangeCleaned (cleanRangeSpecL range.data)

/-- Modelled from the spec: the Value Normalizer `normalizeTextual`
(spec 4.1): trim, case-fold, and canonicalize any text containing the
plus-slash-minus sentinel substring to "negative". The claim C8 reads `matchesString` as
applying this normalizer to BOTH sides; the source applies the special case
only to the observation value. -/
def normalizeTextual (raw : String) : String :=
  let s := lowerS (trimS raw)
  if containsS s "+/-" || containsS s "negative +/-" then "negative" else s

/-- Modelled from the spec: the numeric-range candidates drawn from the
override keys ONLY (claim C3 says the resolver chooses among these); the
source pools the exact-match rows together with the override rows. -/
def overrideNumericOptions (m : RefMap) (allKeys : List String) (tl : String) :
    List (String × ReferenceDataRow) :=
  (concatOptions m (altsOf allKeys tl)).filter
    (fun o => isNumericRange o.2.NormalRange)

/-! ## Substring helper lemmas -/

lemma containsSub_of_startsWith_append (x y : List Char) :
    ∀ h : List Char, startsWithL h (x ++ y) = true → containsSub h y = true := by
  induction x with
  | nil =>
    intro h hs
    cases h with
    | nil =>
      cases y with
      | nil => rfl
      | cons c ys => simp [startsWithL] at hs
    | cons c hs' =>
      simp only [List.nil_append] at hs
      simp [containsSub, hs]
  | cons a x' ih =>
    intro h hs
    cases h with
    | nil => simp [startsWithL] at hs
    | cons b h' =>
      simp only [List.cons_append, startsWithL, Bool.and_eq_true] at hs
      have := ih h' hs.2
      simp [containsSub, this]

lemma containsSub_append_right (x y : List Char) :
    ∀ h : List Char, containsSub h (x ++ y) = true → containsSub h y = true := by
  intro h
  induction h with
  | nil =>
    intro hc
    simp only [containsSub, List.isEmpty_eq_true, List.append_eq_nil] at hc
    simp [containsSub, hc.2]
  | cons c hs ih =>
    intro hc
    simp only [containsSub, Bool.or_eq_true] at hc
    rcases hc with hc | hc
    · exact containsSub_of_startsWith_append x y _ hc
    · have := ih hc
      simp [containsSub, this]

/-- If a string contains the compound negative-plus-slash-minus sentinel
then it contains the bare sentinel (the second disjunct of the
`matchesString` special case is redundant). -/
lemma containsS_negSlash (s : String) (h : containsS s "negative +/-" = true) :
    containsS s "+/-" = true := by
  have hd : "negative +/-".data = "negative ".data ++ "+/-".data := by decide
  unfold containsS at h ⊢
  rw [hd] at h
  exact containsSub_append_right _ _ _ h

/-! ## Character and takeWhile lemmas for the token parser -/

lemma isSpaceChar_cases (c : Char) (h : isSpaceChar c = true) :
    c ∈ ([' ', '\t', '\n', '\r', '\x0b', '\x0c', '\u00A0'] : List Char) := by
  simp only [isSpaceChar, Bool.or_eq_true, decide_eq_true_eq] at h
  rcases h with ((((((rfl | rfl) | rfl) | rfl) | rfl) | rfl) | rfl) <;> decide

lemma isDigit_ne (c : Char) (h : c.isDigit = true) :
    c ≠ '+' ∧ c ≠ '-' ∧ c ≠ '.' ∧ c ≠ ',' ∧ c ≠ '–' ∧ isSpaceChar c = false := by
  refine ⟨?_, ?_, ?_, ?_, ?_, ?_⟩
  · intro hc; subst hc; exact absurd h (by decide)
  · intro hc; subst hc; exact absurd h (by decide)
  · intro hc; subst hc; exact absurd h (by decide)
  · intro hc; subst hc; exact absurd h (by decide)
  · intro hc; subst hc; exact absurd h (by decide)
  · cases hsp : isSpaceChar c with
    | false => rfl
    | true =>
      have hmem := isSpaceChar_cases c hsp
      fin_cases hmem <;> exact absurd h (by decide)

lemma isSpaceChar_ne (c : Char) (h : isSpaceChar c = true) :
    c ≠ ',' ∧ c ≠ '–' ∧ c ≠ '-' ∧ c ≠ '.' ∧ c ≠ '+' ∧ c.isDigit = false := by
  have hmem := isSpaceChar_cases c h
  fin_cases hmem <;> exact ⟨by decide, by decide, by decide, by decide,
    by decide, by decide⟩

lemma takeWhile_all {α : Type} {p : α → Bool} :
    ∀ a : List α, (∀ x ∈ a, p x = true) →
      a.takeWhile p = a ∧ a.dropWhile p = [] := by
  intro a
  induction a with
  | nil => intro _; exact ⟨rfl, rfl⟩
  | cons x xs ih =>
    intro h
    have hx : p x = true := h x (List.mem_cons_self x xs)
    have := ih (fun y hy => h y (List.mem_cons_of_mem x hy))
    simp [List.takeWhile_cons, List.dropWhile_cons, hx, this.1, this.2]

lemma takeWhile_append_stop {α : Type} {p : α → Bool} (c : α) (b : List α)
    (hc : p c = false) :
    ∀ a : List α, (∀ x ∈ a, p x = true) →
      (a ++ c :: b).takeWhile p = a ∧ (a ++ c :: b).dropWhile p = c :: b := by
  intro a
  induction a with
  | nil => intro _; simp [List.takeWhile_cons, List.dropWhile_cons, hc]
  | cons x xs ih =>
    intro h
    have hx : p x = true := h x (List.mem_cons_self x xs)
    have := ih (fun y hy => h y (List.mem_cons_of_mem x hy))
    simp [List.takeWhile_cons, List.dropWhile_cons, hx, this.1, this.2]

lemma takeWhile_digits_append (ds rest : List Char)
    (hds : ∀ c ∈ ds, c.isDigit = true)
    (hrest : rest = [] ∨ ∃ c r, rest = c :: r ∧ c.isDigit = false) :
    (ds ++ rest).takeWhile Char.isDigit = ds ∧
    (ds ++ rest).dropWhile Char.isDigit = rest := by
  rcases hrest with rfl | ⟨c, r, rfl, hc⟩
  · have := takeWhile_all ds hds
    simp [this.1, this.2]
  · exact takeWhile_append_stop c r hc ds hds

/-! ## Structure of successful full-token parses -/

/-- Decomposition of a sign-free string fully consumed by the token parser:
digits, then optionally a dot and a nonempty run of digits, with the parsed
value determined by the digit runs. -/
lemma tokenParseCore_shape (neg : Bool) (l1 : List Char) (v : ℚ)
    (h : tokenParseCore neg l1 = some (v, [])) :
    ∃ ds1, (∀ c ∈ ds1, c.isDigit = true) ∧
      ((l1 = ds1 ∧ ds1 ≠ [] ∧ v = decimalQ neg (digitsVal ds1) 0) ∨
       (∃ ds2, l1 = ds1 ++ '.' :: ds2 ∧ ds2 ≠ [] ∧
          (∀ c ∈ ds2, c.isDigit = true) ∧
          v = decimalQ neg
                (digitsVal ds1 * 10 ^ ds2.length + digitsVal ds2) ds2.length)) := by
  refine ⟨l1.takeWhile Char.isDigit, fun x hx => List.mem_takeWhile_imp hx, ?_⟩
  simp only [tokenParseCore] at h
  split at h
  · rename_i r2 heq
    split at h
    · split at h
      · exact absurd h (by simp)
      · rw [Option.some_inj] at h
        exact absurd (congrArg Prod.snd h) (by simp [heq])
    · rename_i hds2
      rw [Option.some_inj] at h
      have h2 := congrArg Prod.snd h
      simp only at h2
      have h1 := congrArg Prod.fst h
      simp only at h1
      have hr2 : r2.takeWhile Char.isDigit = r2 := by
        have h3 := List.takeWhile_append_dropWhile Char.isDigit r2
        rw [h2, List.append_nil] at h3
        exact h3
      have hl1 : l1.takeWhile Char.isDigit ++ '.' :: r2 = l1 := by
        have h4 := List.takeWhile_append_dropWhile Char.isDigit l1
        rw [heq] at h4
        exact h4
      rw [hr2] at h1 hds2
      refine Or.inr ⟨r2, hl1.symm, ?_, ?_, h1.symm⟩
      · intro hempty
        rw [hempty] at hds2
        exact hds2 rfl
      · intro x hx
        rw [← hr2] at hx
        exact List.mem_takeWhile_imp hx
  · rename_i hnodot
    split at h
    · exact absurd h (by simp)
    · rename_i hds1
      rw [Option.some_inj] at h
      have h2 := congrArg Prod.snd h
      simp only at h2
      have h1 := congrArg Prod.fst h
      simp only at h1
      have hl1 : l1.takeWhile Char.isDigit = l1 := by
        have h3 := List.takeWhile_append_dropWhile Char.isDigit l1
        rw [h2, List.append_nil] at h3
        exact h3
      exact Or.inl ⟨hl1.symm, by simpa using hds1, h1.symm⟩

/-- Splitting the sign off a token parse: on an input assembled from an
optional sign and a sign-free part whose first character is a digit or a
dot, `tokenParse` is `tokenParseCore` with the sign-derived flag. -/
lemma tokenParse_split (pre l1 : List Char)
    (hpre : pre = [] ∨ pre = ['+'] ∨ pre = ['-'])
    (hhead : ∀ c, l1.head? = some c → (c.isDigit = true ∨ c = '.')) :
    tokenParse (pre ++ l1) = tokenParseCore (pre == ['-']) l1 := by
  rcases hpre with rfl | rfl | rfl
  · simp only [List.nil_append, tokenParse]
    cases l1 with
    | nil => rfl
    | cons c cs =>
      have hc := hhead c rfl
      have hcp : (c == '+') = false := by
        rcases hc with hc | rfl
        · simp [(isDigit_ne c hc).1]
        · decide
      have hcm : (c == '-') = false := by
        rcases hc with hc | rfl
        · simp [(isDigit_ne c hc).2.1]
        · decide
      simp [hcp, hcm]
  · simp only [tokenParse, List.cons_append, List.nil_append, List.head?_cons,
      List.tail_cons]
    rfl
  · simp only [tokenParse, List.cons_append, List.nil_append, List.head?_cons,
      List.tail_cons]
    rfl

/-- Computation of the core parser on digits followed by a non-number
remainder. -/
lemma tokenParseCore_int (neg : Bool) (ds1 rest : List Char)
    (hds : ∀ c ∈ ds1, c.isDigit = true) (hne : ds1 ≠ [])
    (hrest : rest = [] ∨ ∃ c r, rest = c :: r ∧ c.isDigit = false ∧ c ≠ '.') :
    tokenParseCore neg (ds1 ++ rest) =
      some (decimalQ neg (digitsVal ds1) 0, rest) := by
  have htw := takeWhile_digits_append ds1 rest hds
    (by rcases hrest with rfl | ⟨c, r, hr, hc, _⟩
        · exact Or.inl rfl
        · exact Or.inr ⟨c, r, hr, hc⟩)
  simp only [tokenParseCore]
  rw [htw.1, htw.2]
  rcases hrest with rfl | ⟨c, r, rfl, _, hdot⟩
  · simp [hne]
  · split
    · rename_i r2 heq
      injection heq with hceq _
      exact absurd hceq hdot
    · simp [hne]

/-- Computation of the core parser on a full decimal token followed by a
non-digit remainder. -/
lemma tokenParseCore_frac (neg : Bool) (ds1 ds2 rest : List Char)
    (hds1 : ∀ c ∈ ds1, c.isDigit = true)
    (hds2 : ∀ c ∈ ds2, c.isDigit = true) (hne2 : ds2 ≠ [])
    (hrest : rest = [] ∨ ∃ c r, rest = c :: r ∧ c.isDigit = false) :
    tokenParseCore neg (ds1 ++ '.' :: (ds2 ++ rest)) =
      some (decimalQ neg (digitsVal ds1 * 10 ^ ds2.length + digitsVal ds2)
              ds2.length, rest) := by
  have hdot : ('.').isDigit = false := by decide
  have htw1 := takeWhile_append_stop '.' (ds2 ++ rest) hdot ds1 hds1
  have htw2 := takeWhile_digits_append ds2 rest hds2 hrest
  simp only [tokenParseCore]
  rw [htw1.1, htw1.2]
  simp [htw2.1, htw2.2, hne2]

/-- Decomposition of a full-token parse into its optional sign and the
sign-free core input. -/
lemma tokenParse_sign (s : List Char) (v : ℚ)
    (h : tokenParse s = some (v, [])) :
    ∃ pre l1, s = pre ++ l1 ∧ (pre = [] ∨ pre = ['+'] ∨ pre = ['-']) ∧
      tokenParseCore (pre == ['-']) l1 = some (v, []) := by
  cases s with
  | nil => exact absurd h (by simp [tokenParse, tokenParseCore])
  | cons c cs =>
    by_cases hp : c = '+'
    · subst hp
      refine ⟨['+'], cs, rfl, Or.inr (Or.inl rfl), ?_⟩
      have e0 : ((['+'] : List Char) == ['-']) = false := by decide
      have e1 : (((some '+' : Option Char) == some '+') ||
        ((some '+' : Option Char) == some '-')) = true := by decide
      have e2 : ((some '+' : Option Char) == some '-') = false := by decide
      unfold tokenParse at h
      simp only [List.head?_cons, List.tail_cons, e1, e2, if_true] at h
      rw [e0]
      exact h
    · by_cases hm : c = '-'
      · subst hm
        refine ⟨['-'], cs, rfl, Or.inr (Or.inr rfl), ?_⟩
        have e0 : ((['-'] : List Char) == ['-']) = true := by decide
        have e1 : (((some '-' : Option Char) == some '+') ||
          ((some '-' : Option Char) == some '-')) = true := by decide
        have e2 : ((some '-' : Option Char) == some '-') = true := by decide
        unfold tokenParse at h
        simp only [List.head?_cons, List.tail_cons, e1, e2, if_true] at h
        rw [e0]
        exact h
      · refine ⟨[], c :: cs, rfl, Or.inl rfl, ?_⟩
        have e0 : ((([] : List Char)) == ['-']) = false := by decide
        have hcp : ((some c : Option Char) == some '+') = false := by simp [hp]
        have hcm : ((some c : Option Char) == some '-') = false := by simp [hm]
        unfold tokenParse at h
        simp only [List.head?_cons, List.tail_cons, hcp, hcm, Bool.or_self,
          Bool.false_eq_true, if_false] at h
        rw [e0]
        exact h

/-- Appending a non-number remainder to a fully consumed token does not
change the parsed value: the remainder is returned unconsumed. -/
lemma tokenParse_extend (s : List Char) (v : ℚ) (c : Char) (r : List Char)
    (h : tokenParse s = some (v, [])) (hc : c.isDigit = false)
    (hdot : c ≠ '.') :
    tokenParse (s ++ c :: r) = some (v, c :: r) := by
  obtain ⟨pre, l1, rfl, hpre, hcore⟩ := tokenParse_sign s v h
  obtain ⟨ds1, hds1, hcase⟩ := tokenParseCore_shape _ _ _ hcore
  rcases hcase with ⟨rfl, hne, hv⟩ | ⟨ds2, rfl, hne2, hds2, hv⟩
  · have hhead : ∀ x, (l1 ++ c :: r).head? = some x →
        (x.isDigit = true ∨ x = '.') := by
      intro x hx
      cases l1 with
      | nil => exact absurd rfl hne
      | cons d ds' =>
        rw [List.cons_append, List.head?_cons, Option.some_inj] at hx
        exact Or.inl (hx ▸ hds1 d (List.mem_cons_self d ds'))
    rw [List.append_assoc, tokenParse_split pre (l1 ++ c :: r) hpre hhead,
      tokenParseCore_int (pre == ['-']) l1 (c :: r) hds1 hne
        (Or.inr ⟨c, r, rfl, hc, hdot⟩), ← hv]
  · have hassoc : (pre ++ (ds1 ++ '.' :: ds2)) ++ c :: r =
        pre ++ (ds1 ++ '.' :: (ds2 ++ c :: r)) := by
      simp [List.append_assoc]
    have hhead : ∀ x, (ds1 ++ '.' :: (ds2 ++ c :: r)).head? = some x →
        (x.isDigit = true ∨ x = '.') := by
      intro x hx
      cases ds1 with
      | nil =>
        rw [List.nil_append, List.head?_cons, Option.some_inj] at hx
        exact Or.inr hx.symm
      | cons d ds' =>
        rw [List.cons_append, List.head?_cons, Option.some_inj] at hx
        exact Or.inl (hx ▸ hds1 d (List.mem_cons_self d ds'))
    rw [hassoc, tokenParse_split pre _ hpre hhead,
      tokenParseCore_frac (pre == ['-']) ds1 ds2 (c :: r) hds1 hds2 hne2
        (Or.inr ⟨c, r, rfl, hc⟩), ← hv]

/-- Every character of a fully consumed token is a sign, a dot, or a
digit; in particular none is a comma or an en-dash, and none is space. -/
lemma tokenParse_chars (s : List Char) (v : ℚ)
    (h : tokenParse s = some (v, [])) :
    ∀ c ∈ s, c = '+' ∨ c = '-' ∨ c = '.' ∨ c.isDigit = true := by
  obtain ⟨pre, l1, rfl, hpre, hcore⟩ := tokenParse_sign s v h
  obtain ⟨ds1, hds1, hcase⟩ := tokenParseCore_shape _ _ _ hcore
  intro c hc
  rw [List.mem_append] at hc
  rcases hc with hc | hc
  · rcases hpre with rfl | rfl | rfl
    · exact absurd hc (List.not_mem_nil c)
    · exact Or.inl (List.mem_singleton.mp hc)
    · exact Or.inr (Or.inl (List.mem_singleton.mp hc))
  · rcases hcase with ⟨rfl, _, _⟩ | ⟨ds2, rfl, _, hds2, _⟩
    · exact Or.inr (Or.inr (Or.inr (hds1 c hc)))
    · rw [List.mem_append] at hc
      rcases hc with hc | hc
      · exact Or.inr (Or.inr (Or.inr (hds1 c hc)))
      · rw [List.mem_cons] at hc
        rcases hc with rfl | hc
        · exact Or.inr (Or.inr (Or.inl rfl))
        · exact Or.inr (Or.inr (Or.inr (hds2 c hc)))

/-- A full-token input is nonempty and starts with a sign, a dot, or a
digit, hence not with a space. -/
lemma tokenParse_head_not_space (s : List Char) (v : ℚ)
    (h : tokenParse s = some (v, [])) :
    ∃ c r, s = c :: r ∧ isSpaceChar c = false := by
  cases s with
  | nil => exact absurd h (by simp [tokenParse, tokenParseCore])
  | cons c r =>
    refine ⟨c, r, rfl, ?_⟩
    have := tokenParse_chars _ _ h c (List.mem_cons_self c r)
    rcases this with rfl | rfl | rfl | hd
    · decide
    · decide
    · decide
    · exact (isDigit_ne c hd).2.2.2.2.2

/-! ## Claim C1 -/

/-- C1: for every range that parses to an interval with endpoints `mn`, `mx`
and every observation value from which a numeric value `v` is extracted,
`isWithinRange` returns true if and only if `mn ≤ v ∧ v ≤ mx`; both
comparisons are inclusive, so each boundary value of a well-ordered interval
is classified as matched. -/
theorem C1_isWithinRange_iff (value : StrOrNum) (range : String) (v mn mx : ℚ)
    (hv : extractNumericValue value = some v)
    (hr : parseRange range = some (mn, mx)) :
    (isWithinRange value range = true ↔ (mn ≤ v ∧ v ≤ mx)) ∧
    (v = mn → mn ≤ mx → isWithinRange value range = true) ∧
    (v = mx → mn ≤ mx → isWithinRange value range = true) := by
  have hmain : isWithinRange value range = true ↔ (mn ≤ v ∧ v ≤ mx) := by
    unfold isWithinRange
    rw [hv, hr]
    simp
  refine ⟨hmain, ?_, ?_⟩
  · intro hvm hle
    subst hvm
    exact hmain.mpr ⟨le_refl v, hle⟩
  · intro hvm hle
    subst hvm
    exact hmain.mpr ⟨hle, le_refl v⟩

/-- C1 witness: concrete interval evaluation for value 5 in range 1-10. -/
theorem C1_isWithinRange_iff_witness :
    extractNumericValue (.str "5 mg") = some (mkRat 5 1) ∧
    parseRange "1-10" = some ((1 : ℚ), (10 : ℚ)) ∧
    (isWithinRange (.str "5 mg") "1-10" = true ↔
      ((1 : ℚ) ≤ mkRat 5 1 ∧ mkRat 5 1 ≤ (10 : ℚ))) :=
  ⟨by decide, by decide,
   (C1_isWithinRange_iff (.str "5 mg") "1-10" (mkRat 5 1) 1 10
     (by decide) (by decide)).1⟩

/-! ## Claim C4 -/

/-- Gender selection as the spec words it: the first entry whose normalized
gender spec equals the observation gender, else the first entry whose gender
spec normalizes to "both", else the first entry in insertion order; `none`
for the empty list. -/
def selectBestGenderMatchSpec (refs : List ReferenceDataRow)
    (g : Option String) : Option ReferenceDataRow :=
  match refs.find? (fun r => genderNorm r == g) with
  | some r => some r
  | none =>
    match refs.find? (fun r => genderNorm r == some "both") with
    | some r => some r
    | none => refs.head?

/-- C4: `selectBestGenderMatch` implements exactly the priority order of the
spec (exact gender, then "both", then first entry, `none` on empty), and in
particular picks the Both entry for gender Female among Male and Both. -/
theorem C4_selectBestGenderMatch_spec :
    (∀ (refs : List ReferenceDataRow) (g : Option String),
      selectBestGenderMatch refs g = selectBestGenderMatchSpec refs g) ∧
    selectBestGenderMatch [maleRow, bothRow] (some "female") = some bothRow := by
  constructor
  · intro refs g
    cases refs with
    | nil => rfl
    | cons r0 rs => rfl
  · decide

/-! ## Claim C9 -/

/-- C9: a missing test name, or a test name that trims to the empty string,
makes the resolver return `none` for every index; the model is a total Lean
function, so no input can raise. -/
theorem C9_resolver_total (p : PatientDataRow) (m : RefMap)
    (h : p.LBTEST = none ∨ ∃ t, p.LBTEST = some t ∧ trimS t = "") :
    findBestReferenceMatch p m = none := by
  unfold findBestReferenceMatch
  rcases h with h | ⟨t, ht, htr⟩
  · rw [h]
  · rw [ht]
    simp [htr]

/-- C9 witness: a test name of blanks resolves to `none`. -/
theorem C9_resolver_total_witness :
    findBestReferenceMatch
      { LBTEST := some "  ", LBORRES := some "5", Gender := some "Male" }
      glucoseMap = none :=
  C9_resolver_total _ _ (Or.inr ⟨"  ", rfl, by decide⟩)

/-! ## Claim C5 -/

/-- C5 counterexample: the claim says extraction scans the TRIMMED string,
but the source regex is anchored at the raw start; on the input " 5" the
code returns `none` while the trimmed-scan reading yields 5. -/
theorem C5_counterexample :
    extractNumericValue (.str " 5") = none ∧
    extractNumericValueSpec (.str " 5") = some (mkRat 5 1) := by
  decide

/-- C5 (amended): numbers are returned unchanged; a string is scanned from
its raw (untrimmed) start for a leading `[+-]?\d*\.?\d+` token; when the
first character is neither a digit, a sign, nor a dot, no number is ever
extracted, so the two spec examples behave as stated. -/
theorem C5_extract_amended :
    (∀ q : ℚ, extractNumericValue (.num q) = some q) ∧
    extractNumericValue (.str "8187.7 cells/mm³") = some (mkRat 81877 10) ∧
    extractNumericValue (.str "cells 8187.7") = none ∧
    (∀ (c : Char) (s : List Char), c.isDigit = false → c ≠ '+' → c ≠ '-' →
      c ≠ '.' → extractNumericValue (.str (String.mk (c :: s))) = none) := by
  refine ⟨fun q => rfl, by decide, by decide, ?_⟩
  intro c s hd hp hm hdot
  have hp' : ((some c : Option Char) == some '+') = false := by simp [hp]
  have hm' : ((some c : Option Char) == some '-') = false := by simp [hm]
  simp only [extractNumericValue, tokenParse, tokenParseCore,
    List.head?_cons, List.tail_cons, hp', hm', Bool.or_self,
    Bool.false_eq_true, if_false, List.takeWhile_cons, List.dropWhile_cons,
    hd, cond_false]
  split
  · rename_i r2 heq
    injection heq with h1 _
    exact absurd h1 hdot
  · simp

/-- C5 witness: the general no-leading-token clause applied at the concrete
input "cells 8187.7". -/
theorem C5_extract_amended_witness :
    ('c'.isDigit = false ∧ 'c' ≠ '+' ∧ 'c' ≠ '-' ∧ 'c' ≠ '.') ∧
    extractNumericValue (.str (String.mk ('c' :: "ells 8187.7".data))) = none :=
  ⟨⟨by decide, by decide, by decide, by decide⟩,
   C5_extract_amended.2.2.2 'c' "ells 8187.7".data
     (by decide) (by decide) (by decide) (by decide)⟩

/-! ## Claim C6 -/

/-- C6 counterexample: the claim says both en-dash and em-dash are
normalized, but the source only replaces the en-dash; on an em-dash range
the code returns `none` while the spec reading parses the interval. -/
theorem C6_counterexample :
    parseRange "13.8—17.2" = none ∧
    parseRangeSpec "13.8—17.2" = some (mkRat 138 10, mkRat 172 10) := by
  decide

/-- C6 (amended): `parseRange` strips commas and normalizes the en-dash
(only) to a hyphen; both spec round-trip examples hold, the en-dash variant
parses, and the em-dash variant does not. -/
theorem C6_parseRange_amended :
    parseRange "4,000 - 11,000" = some ((4000 : ℚ), (11000 : ℚ)) ∧
    parseRange "13.8-17.2" = some (mkRat 138 10, mkRat 172 10) ∧
    parseRange "13.8–17.2" = some (mkRat 138 10, mkRat 172 10) ∧
    parseRange "13.8—17.2" = none := by
  decide

/-! ## Claim C7 -/

lemma cleanRangeL_append (a b : List Char) :
    cleanRangeL (a ++ b) = cleanRangeL a ++ cleanRangeL b := by
  simp [cleanRangeL, List.filter_append]

lemma cleanRangeL_id (l : List Char) (h : ∀ c ∈ l, c ≠ ',' ∧ c ≠ '–') :
    cleanRangeL l = l := by
  induction l with
  | nil => rfl
  | cons c cs ih =>
    have hc := h c (List.mem_cons_self c cs)
    have ihh := ih (fun x hx => h x (List.mem_cons_of_mem c hx))
    simp only [cleanRangeL, List.filter_cons] at ihh ⊢
    have h1 : (!(c == ',')) = true := by simp [hc.1]
    rw [h1, if_pos rfl]
    simp only [List.map_cons, if_neg hc.2, ihh]

lemma dropWhile_spaces_append (w x : List Char)
    (hw : ∀ c ∈ w, isSpaceChar c = true) :
    (w ++ x).dropWhile isSpaceChar = x.dropWhile isSpaceChar := by
  induction w with
  | nil => rfl
  | cons c cs ih =>
    have hc := hw c (List.mem_cons_self c cs)
    rw [List.cons_append, List.dropWhile_cons]
    simp only [hc, if_true]
    exact ih (fun x hx => hw x (List.mem_cons_of_mem c hx))

/-- C7: for every cleaned range text assembled from two numeric tokens
around a hyphen (with optional surrounding whitespace), `parseRange` assigns
`min` from the FIRST token and `max` from the second regardless of numeric
ordering — no swap and no validation — and in particular
`parseRange "17.2-13.8"` yields the inverted pair (17.2, 13.8). -/
theorem C7_parseRange_no_swap :
    (∀ (s₁ s₂ w₁ w₂ : List Char) (v₁ v₂ : ℚ),
      tokenParse s₁ = some (v₁, []) →
      tokenParse s₂ = some (v₂, []) →
      (∀ c ∈ w₁, isSpaceChar c = true) →
      (∀ c ∈ w₂, isSpaceChar c = true) →
      parseRange (String.mk (s₁ ++ w₁ ++ '-' :: (w₂ ++ s₂))) = some (v₁, v₂)) ∧
    parseRange "17.2-13.8" = some (mkRat 172 10, mkRat 138 10) := by
  constructor
  · intro s₁ s₂ w₁ w₂ v₁ v₂ h₁ h₂ hw₁ hw₂
    have hclean : cleanRangeL (s₁ ++ w₁ ++ '-' :: (w₂ ++ s₂)) =
        s₁ ++ w₁ ++ '-' :: (w₂ ++ s₂) := by
      apply cleanRangeL_id
      intro c hc
      simp only [List.mem_append, List.mem_cons] at hc
      rcases hc with (hc | hc) | rfl | hc | hc
      · rcases tokenParse_chars s₁ v₁ h₁ c hc with rfl | rfl | rfl | hd
        · exact ⟨by decide, by decide⟩
        · exact ⟨by decide, by decide⟩
        · exact ⟨by decide, by decide⟩
        · exact ⟨(isDigit_ne c hd).2.2.2.1, (isDigit_ne c hd).2.2.2.2.1⟩
      · exact ⟨(isSpaceChar_ne c (hw₁ c hc)).1, (isSpaceChar_ne c (hw₁ c hc)).2.1⟩
      · exact ⟨by decide, by decide⟩
      · exact ⟨(isSpaceChar_ne c (hw₂ c hc)).1, (isSpaceChar_ne c (hw₂ c hc)).2.1⟩
      · rcases tokenParse_chars s₂ v₂ h₂ c hc with rfl | rfl | rfl | hd
        · exact ⟨by decide, by decide⟩
        · exact ⟨by decide, by decide⟩
        · exact ⟨by decide, by decide⟩
        · exact ⟨(isDigit_ne c hd).2.2.2.1, (isDigit_ne c hd).2.2.2.2.1⟩
    have hext : tokenParse (s₁ ++ (w₁ ++ '-' :: (w₂ ++ s₂))) =
        some (v₁, w₁ ++ '-' :: (w₂ ++ s₂)) := by
      cases w₁ with
      | nil =>
        simpa using tokenParse_extend s₁ v₁ '-' (w₂ ++ s₂) h₁
          (by decide) (by decide)
      | cons c w' =>
        have hsp := isSpaceChar_ne c (hw₁ c (List.mem_cons_self c w'))
        simpa using tokenParse_extend s₁ v₁ c (w' ++ '-' :: (w₂ ++ s₂)) h₁
          hsp.2.2.2.2.2 hsp.2.2.2.1
    have hds : isSpaceChar '-' = false := by decide
    have hdw₁ : (w₁ ++ '-' :: (w₂ ++ s₂)).dropWhile isSpaceChar =
        '-' :: (w₂ ++ s₂) := by
      rw [dropWhile_spaces_append w₁ _ hw₁, List.dropWhile_cons, hds]
      simp
    have hdw₂ : (w₂ ++ s₂).dropWhile isSpaceChar = s₂ := by
      rw [dropWhile_spaces_append w₂ _ hw₂]
      obtain ⟨c, r, rfl, hcs⟩ := tokenParse_head_not_space s₂ v₂ h₂
      rw [List.dropWhile_cons, hcs]
      simp
    show parseRangeCleaned (cleanRangeL (String.mk
      (s₁ ++ w₁ ++ '-' :: (w₂ ++ s₂))).data) = some (v₁, v₂)
    have hdata : (String.mk (s₁ ++ w₁ ++ '-' :: (w₂ ++ s₂))).data =
        s₁ ++ w₁ ++ '-' :: (w₂ ++ s₂) := rfl
    rw [hdata, hclean, List.append_assoc]
    simp only [parseRangeCleaned, hext, hdw₁, hdw₂, h₂]
  · decide

/-- C7 witness: the general no-swap theorem applied to the inverted concrete
range text. -/
theorem C7_parseRange_no_swap_witness :
    (tokenParse "17.2".data = some (mkRat 172 10, []) ∧
     tokenParse "13.8".data = some (mkRat 138 10, [])) ∧
    parseRange (String.mk ("17.2".data ++ [] ++ '-' :: ([] ++ "13.8".data))) =
      some (mkRat 172 10, mkRat 138 10) :=
  ⟨⟨by decide, by decide⟩,
   C7_parseRange_no_swap.1 "17.2".data "13.8".data [] []
     (mkRat 172 10) (mkRat 138 10) (by decide) (by decide)
     (by simp) (by simp)⟩

/-! ## Claim C8 -/

/-- C8 counterexample: the claim says BOTH sides are normalized with the
sentinel-to-"negative" rule; under that reading "Negative" against the
plus-slash-minus sentinel would match, but the source applies the rule only
to the observation value and returns false. -/
theorem C8_counterexample :
    matchesString "Negative" "+/-" = false ∧
    normalizeTextual "Negative" = normalizeTextual "+/-" := by
  decide

/-- C8 (amended): the canonicalization applies only to the observation
value: when the normalized observation contains the sentinel, the match succeeds
exactly when the trimmed case-folded reference text equals "negative";
otherwise the two trimmed case-folded forms are compared for equality. The
sentinel example of the spec still matches. -/
theorem C8_matchesString_amended :
    matchesString "+/-" "Negative" = true ∧
    (∀ v e, containsS (lowerS (trimS v)) "+/-" = true →
      (matchesString v e = true ↔ lowerS (trimS e) = "negative")) ∧
    (∀ v e, containsS (lowerS (trimS v)) "+/-" = false →
      (matchesString v e = true ↔ lowerS (trimS v) = lowerS (trimS e))) := by
  refine ⟨by decide, ?_, ?_⟩
  · intro v e h
    simp [matchesString, h]
  · intro v e h
    have h2 : containsS (lowerS (trimS v)) "negative +/-" = false := by
      cases hc : containsS (lowerS (trimS v)) "negative +/-" with
      | false => rfl
      | true => exact absurd (containsS_negSlash _ hc) (by simp [h])
    simp [matchesString, h, h2]

/-- C8 witness: the observation-only rule applied at the sentinel pair. -/
theorem C8_matchesString_amended_witness :
    containsS (lowerS (trimS "+/-")) "+/-" = true ∧
    (matchesString "+/-" "Negative" = true ↔
      lowerS (trimS "Negative") = "negative") :=
  ⟨by decide, C8_matchesString_amended.2.1 "+/-" "Negative" (by decide)⟩

/-! ## Resolver membership lemmas (for claims C2, C3, C10) -/

lemma isEmpty_false_of_mem {α : Type} {x : α} {l : List α} (h : x ∈ l) :
    l.isEmpty = false := by
  cases l with
  | nil => exact absurd h (List.not_mem_nil x)
  | cons a as => rfl

lemma find?_isSome_of_mem {α : Type} (l : List α) (p : α → Bool) (x : α)
    (hx : x ∈ l) (hp : p x = true) : ∃ y, l.find? p = some y := by
  have h := List.find?_isSome.mpr ⟨x, hx, hp⟩
  exact Option.isSome_iff_exists.mp h

lemma mapGet_isSome (m : RefMap) (k : String) (hk : k ∈ m.map (·.1)) :
    ∃ l, mapGet m k = some l := by
  rw [List.mem_map] at hk
  obtain ⟨e, he, hek⟩ := hk
  obtain ⟨y, hy⟩ := find?_isSome_of_mem m (fun e => e.1 == k) e he
    (by simp [hek])
  exact ⟨y.2, by simp [mapGet, hy]⟩

lemma mapGet_mem (m : RefMap) (k : String) (l : List ReferenceDataRow)
    (h : mapGet m k = some l) : ∃ e ∈ m, e.2 = l := by
  unfold mapGet at h
  cases hf : m.find? (fun e => e.1 == k) with
  | none => rw [hf] at h; exact absurd h (by simp)
  | some e =>
    rw [hf] at h
    refine ⟨e, List.mem_of_find?_eq_some hf, ?_⟩
    simpa using h

lemma selectBest_mem (refs : List ReferenceDataRow) (g : Option String)
    (r : ReferenceDataRow) (h : selectBestGenderMatch refs g = some r) :
    r ∈ refs := by
  unfold selectBestGenderMatch at h
  split at h
  · exact absurd h (by simp)
  · rename_i r0 rs
    split at h
    · rw [Option.some_inj] at h
      exact h ▸ List.mem_of_find?_eq_some (by assumption)
    · split at h
      · rw [Option.some_inj] at h
        exact h ▸ List.mem_of_find?_eq_some (by assumption)
      · rw [Option.some_inj] at h
        exact h ▸ List.mem_cons_self r0 rs

lemma selectBest_isSome (refs : List ReferenceDataRow) (g : Option String)
    (hne : refs ≠ []) :
    ∃ r, selectBestGenderMatch refs g = some r ∧ r ∈ refs := by
  cases refs with
  | nil => exact absurd rfl hne
  | cons r0 rs =>
    cases h1 : (r0 :: rs).find? (fun r => genderNorm r == g) with
    | some r =>
      refine ⟨r, ?_, List.mem_of_find?_eq_some h1⟩
      simp [selectBestGenderMatch, h1]
    | none =>
      cases h2 : (r0 :: rs).find? (fun r => genderNorm r == some "both") with
      | some r =>
        refine ⟨r, ?_, List.mem_of_find?_eq_some h2⟩
        simp [selectBestGenderMatch, h1, h2]
      | none =>
        refine ⟨r0, ?_, List.mem_cons_self r0 rs⟩
        simp [selectBestGenderMatch, h1, h2]

lemma selectBest_getD_mem (m : RefMap) (k : String) (g : Option String)
    (r : ReferenceDataRow)
    (h : selectBestGenderMatch ((mapGet m k).getD []) g = some r) :
    ∃ e ∈ m, r ∈ e.2 := by
  cases hg : mapGet m k with
  | none =>
    rw [hg] at h
    exact absurd (selectBest_mem _ _ _ h) (List.not_mem_nil r)
  | some l =>
    rw [hg] at h
    obtain ⟨e, he, hel⟩ := mapGet_mem m k l hg
    exact ⟨e, he, hel ▸ selectBest_mem _ _ _ h⟩

lemma optionsFor_mem (m : RefMap) (k : String) (o : String × ReferenceDataRow)
    (h : o ∈ optionsFor m k) : ∃ e ∈ m, o.2 ∈ e.2 := by
  unfold optionsFor at h
  rw [List.mem_map] at h
  obtain ⟨r, hr, rfl⟩ := h
  cases hg : mapGet m k with
  | none => rw [hg] at hr; exact absurd hr (List.not_mem_nil r)
  | some l =>
    rw [hg] at hr
    obtain ⟨e, he, hel⟩ := mapGet_mem m k l hg
    exact ⟨e, he, hel ▸ hr⟩

lemma optionsFor_of_mem (m : RefMap) (k : String) (l : List ReferenceDataRow)
    (r : ReferenceDataRow) (hl : mapGet m k = some l) (hr : r ∈ l) :
    (k, r) ∈ optionsFor m k := by
  unfold optionsFor
  rw [hl]
  exact List.mem_map.mpr ⟨r, hr, rfl⟩

lemma concatOptions_mem (m : RefMap) (ks : List String)
    (o : String × ReferenceDataRow) (h : o ∈ concatOptions m ks) :
    ∃ k ∈ ks, o ∈ optionsFor m k := by
  induction ks with
  | nil => exact absurd h (List.not_mem_nil o)
  | cons k ks' ih =>
    rw [concatOptions, List.mem_append] at h
    rcases h with h | h
    · exact ⟨k, List.mem_cons_self k ks', h⟩
    · obtain ⟨k', hk', ho⟩ := ih h
      exact ⟨k', List.mem_cons_of_mem k hk', ho⟩

lemma concatOptions_of_mem (m : RefMap) (ks : List String) (k : String)
    (o : String × ReferenceDataRow) (hk : k ∈ ks) (ho : o ∈ optionsFor m k) :
    o ∈ concatOptions m ks := by
  induction ks with
  | nil => exact absurd hk (List.not_mem_nil k)
  | cons a ks' ih =>
    rw [concatOptions, List.mem_append]
    rw [List.mem_cons] at hk
    rcases hk with rfl | hk
    · exact Or.inl ho
    · exact Or.inr (ih hk)

lemma glucoseEarly_mem (m : RefMap) (g : Option String) (alts : List String)
    (tl : String) (res : Option ReferenceDataRow) (r : ReferenceDataRow)
    (h : glucoseEarly m g alts tl = some res) (hr : res = some r) :
    ∃ e ∈ m, r ∈ e.2 := by
  unfold glucoseEarly at h
  split at h
  · split at h
    · rename_i fm hfm
      cases hg : mapGet m fm with
      | none => rw [hg] at h; exact absurd h (by simp)
      | some frs =>
        rw [hg] at h
        rw [Option.map_some', Option.some_inj] at h
        rw [← h] at hr
        obtain ⟨e, he, hel⟩ := mapGet_mem m fm frs hg
        exact ⟨e, he, hel ▸ selectBest_mem _ _ _ hr⟩
    · exact absurd h (by simp)
  · exact absurd h (by simp)

lemma numericPool_mem (m : RefMap) (em : String) (allKeys : List String)
    (tl : String) (r : ReferenceDataRow)
    (hr : r ∈ (numericOptionsOf m em allKeys tl).map (·.2)) :
    ∃ e ∈ m, r ∈ e.2 := by
  rw [List.mem_map] at hr
  obtain ⟨o, ho, rfl⟩ := hr
  unfold numericOptionsOf at ho
  have ho' := List.mem_of_mem_filter ho
  rw [List.mem_append] at ho'
  rcases ho' with ho' | ho'
  · exact optionsFor_mem m em o ho'
  · obtain ⟨k, _, hk⟩ := concatOptions_mem m _ o ho'
    exact optionsFor_mem m k o hk

lemma numericEarly_mem (m : RefMap) (g : Option String) (em : String)
    (allKeys : List String) (tl : String) (pval : String)
    (res : Option ReferenceDataRow) (r : ReferenceDataRow)
    (h : numericEarly m g em allKeys tl pval = some res) (hr : res = some r) :
    ∃ e ∈ m, r ∈ e.2 := by
  simp only [numericEarly] at h
  split at h
  · split at h
    · rename_i r' hsel
      rw [Option.some_inj] at h
      rw [← h, Option.some_inj] at hr
      exact numericPool_mem m em allKeys tl r
        (hr ▸ selectBest_mem _ _ _ hsel)
    · exact absurd h (by simp)
  · exact absurd h (by simp)

lemma finalGlucose_mem (m : RefMap) (g : Option String) (em : String)
    (allKeys : List String) (tl : String) (pval : String)
    (res : Option ReferenceDataRow) (r : ReferenceDataRow)
    (h : finalGlucose m g em allKeys tl pval = some res) (hr : res = some r) :
    ∃ e ∈ m, r ∈ e.2 := by
  unfold finalGlucose at h
  split at h
  · split at h
    · rename_i fk hfk
      split at h
      · exact absurd h (by simp)
      · cases hg : mapGet m fk with
        | none => rw [hg] at h; exact absurd h (by simp)
        | some frs =>
          rw [hg] at h
          rw [Option.map_some', Option.some_inj] at h
          rw [← h] at hr
          obtain ⟨e, he, hel⟩ := mapGet_mem m fk frs hg
          exact ⟨e, he, hel ▸ selectBest_mem _ _ _ hr⟩
    · exact absurd h (by simp)
  · exact absurd h (by simp)

lemma exactBranch_mem (m : RefMap) (g : Option String) (allKeys : List String)
    (tl : String) (em : String) (pval : String) (r : ReferenceDataRow)
    (h : exactBranch m g allKeys tl em pval = some r) : ∃ e ∈ m, r ∈ e.2 := by
  simp only [exactBranch] at h
  rcases orElseRes_cases h with ⟨res, ha, hres⟩ | ⟨_, h⟩
  · rcases hE : (altsOf allKeys tl).isEmpty with _ | _ <;> rw [hE] at ha
    · exact glucoseEarly_mem m g _ tl res r (by simpa using ha) hres
    · exact absurd ha (by simp)
  · rcases orElseRes_cases h with ⟨res, ha, hres⟩ | ⟨_, h⟩
    · rcases hE : (altsOf allKeys tl).isEmpty with _ | _ <;> rw [hE] at ha
      · exact numericEarly_mem m g em allKeys tl pval res r (by simpa using ha) hres
      · exact absurd ha (by simp)
    · rcases orElseRes_cases h with ⟨res, ha, hres⟩ | ⟨_, h⟩
      · exact finalGlucose_mem m g em allKeys tl pval res r ha hres
      · exact selectBest_getD_mem m em g r h

lemma strategy3_mem (m : RefMap) (g : Option String) (allKeys : List String)
    (tl : String) (r : ReferenceDataRow)
    (h : strategy3 m g allKeys tl = some r) : ∃ e ∈ m, r ∈ e.2 := by
  simp only [strategy3] at h
  split at h
  · exact absurd h (by simp)
  · exact selectBest_getD_mem m _ g r h

lemma strategy2_mem (m : RefMap) (g : Option String) (allKeys : List String)
    (tl : String) (pval : String) (r : ReferenceDataRow)
    (h : strategy2 m g allKeys tl pval = some r) : ∃ e ∈ m, r ∈ e.2 := by
  simp only [strategy2] at h
  split at h
  · exact strategy3_mem m g allKeys tl r h
  · rcases orElseRes_cases h with ⟨res, ha, hres⟩ | ⟨_, h⟩
    · split at ha
      · split at ha
        · split at ha
          · rename_i r' hsel
            rw [Option.some_inj] at ha
            rw [← ha, Option.some_inj] at hres
            have hmem := selectBest_mem _ _ _ hsel
            rw [hres] at hmem
            rw [List.mem_map] at hmem
            obtain ⟨o, ho, rfl⟩ := hmem
            have ho' := List.mem_of_mem_filter ho
            obtain ⟨k, _, hk⟩ := concatOptions_mem m _ o ho'
            exact optionsFor_mem m k o hk
          · exact absurd ha (by simp)
        · exact absurd ha (by simp)
      · exact absurd ha (by simp)
    · exact selectBest_getD_mem m _ g r h

lemma findBestReferenceMatch_mem (p : PatientDataRow) (m : RefMap)
    (r : ReferenceDataRow) (h : findBestReferenceMatch p m = some r) :
    ∃ e ∈ m, r ∈ e.2 := by
  simp only [findBestReferenceMatch] at h
  split at h
  · exact absurd h (by simp)
  · split at h
    · exact absurd h (by simp)
    · split at h
      · exact exactBranch_mem m _ _ _ _ _ r h
      · exact strategy2_mem m _ _ _ _ r h

/-! ## Claim C2 -/

/-- C2 counterexample: the claim quantifies over test names that merely
CONTAIN "glucose", but the glucose special case lives only in the
exact-match strategy; the test name "serum glucose" with a numeric value
resolves through the contains-match strategy to the plain glucose key, not
to the glucose-fasting key. -/
theorem C2_counterexample :
    findBestReferenceMatch
      { LBTEST := some "serum glucose", LBORRES := some "11.06",
        Gender := some "Male" } glucoseMap = some gRow ∧
    containsS (lowerS "serum glucose") "glucose" = true ∧
    hasDigitS "11.06" = true ∧
    mapGet glucoseMap "glucose (fasting)" = some [fRow] ∧
    gRow ∉ [fRow] := by
  decide

/-- C2 (amended): when the trimmed test name case-folds EXACTLY to
"glucose", the index has a key that case-folds to "glucose" and a key
containing both "glucose" and "fasting", every key has at least one row,
and the observation value contains a digit, the resolver returns a row
stored under a glucose-fasting key. -/
theorem C2_glucose_fasting_amended (p : PatientDataRow) (m : RefMap)
    (t : String) (hT : p.LBTEST = some t)
    (htl : lowerS (trimS t) = "glucose")
    (hG : ∃ k ∈ m.map (·.1), lowerS k = "glucose")
    (hF : ∃ k ∈ m.map (·.1), containsS (lowerS k) "glucose" = true ∧
      containsS (lowerS k) "fasting" = true)
    (hNE : ∀ e ∈ m, e.2 ≠ [])
    (hD : hasDigitS ((p.LBORRES).getD "") = true) :
    ∃ fk l r, mapGet m fk = some l ∧
      containsS (lowerS fk) "glucose" = true ∧
      containsS (lowerS fk) "fasting" = true ∧
      findBestReferenceMatch p m = some r ∧ r ∈ l := by
  obtain ⟨k₀, hk₀m, hk₀⟩ := hG
  obtain ⟨f₀, hf₀m, hf₀g, hf₀f⟩ := hF
  have htne : (trimS t == "") = false := by
    cases hbe : trimS t == "" with
    | false => rfl
    | true =>
      have heq := eq_of_beq hbe
      rw [heq] at htl
      exact absurd htl (by decide)
  obtain ⟨em, hem⟩ := find?_isSome_of_mem (m.map (·.1))
    (fun k => lowerS k == "glucose") k₀ hk₀m (by simp [hk₀])
  have hf₀ne : (lowerS f₀ == "glucose") = false := by
    cases hbe : lowerS f₀ == "glucose" with
    | false => rfl
    | true =>
      have heq := eq_of_beq hbe
      rw [heq] at hf₀f
      exact absurd hf₀f (by decide)
  have hf₀alts : f₀ ∈ altsOf (m.map (·.1)) "glucose" := by
    unfold altsOf
    exact List.mem_filter.mpr ⟨hf₀m, by simp [hf₀g, hf₀ne]⟩
  have haltsE : (altsOf (m.map (·.1)) "glucose").isEmpty = false :=
    isEmpty_false_of_mem hf₀alts
  obtain ⟨fm, hfm⟩ := find?_isSome_of_mem _
    (fun a => containsS (lowerS a) "fasting") f₀ hf₀alts hf₀f
  have hfmalts : fm ∈ altsOf (m.map (·.1)) "glucose" :=
    List.mem_of_find?_eq_some hfm
  have hfmf : containsS (lowerS fm) "fasting" = true := by
    simpa using List.find?_some hfm
  have hfmg : containsS (lowerS fm) "glucose" = true := by
    have hmem := (List.mem_filter.mp hfmalts).2
    rw [Bool.and_eq_true] at hmem
    exact hmem.1
  have hfmkeys : fm ∈ m.map (·.1) := (List.mem_filter.mp hfmalts).1
  obtain ⟨l, hl⟩ := mapGet_isSome m fm hfmkeys
  obtain ⟨e, hemem, hel⟩ := mapGet_mem m fm l hl
  have hlne : l ≠ [] := hel ▸ hNE e hemem
  obtain ⟨r, hsel, hrl⟩ :=
    selectBest_isSome l (p.Gender.map (fun s => lowerS (trimS s))) hlne
  have hge : glucoseEarly m (p.Gender.map (fun s => lowerS (trimS s)))
      (altsOf (m.map (·.1)) "glucose") "glucose" = some (some r) := by
    unfold glucoseEarly
    rw [if_pos (show (("glucose" == "glucose" ||
      containsS "glucose" "glucose") = true) by decide)]
    rw [hfm]
    simp only [hl, Option.map_some', hsel]
  have hbr : exactBranch m (p.Gender.map (fun s => lowerS (trimS s)))
      (m.map (·.1)) "glucose" em ((p.LBORRES).getD "") = some r := by
    simp only [exactBranch, haltsE, Bool.false_eq_true, if_false, hge,
      orElseRes]
  refine ⟨fm, l, r, hl, hfmg, hfmf, ?_, hrl⟩
  simp only [findBestReferenceMatch, hT, htne, Bool.false_eq_true, if_false,
    htl, hem, hbr]

/-- C2 witness: the amended glucose rule at the concrete spec example. -/
theorem C2_glucose_fasting_amended_witness :
    lowerS (trimS "Glucose") = "glucose" ∧
    (∃ fk l r, mapGet glucoseMap fk = some l ∧
      containsS (lowerS fk) "glucose" = true ∧
      containsS (lowerS fk) "fasting" = true ∧
      findBestReferenceMatch
        { LBTEST := some "Glucose", LBORRES := some "11.06",
          Gender := some "Male" } glucoseMap = some r ∧ r ∈ l) :=
  ⟨by decide,
   C2_glucose_fasting_amended
     { LBTEST := some "Glucose", LBORRES := some "11.06",
       Gender := some "Male" } glucoseMap "Glucose" rfl (by decide)
     ⟨"glucose", by decide, by decide⟩
     ⟨"glucose (fasting)", by decide, by decide, by decide⟩
     (by decide) (by decide)⟩

/-! ## Claim C3 -/

/-- C3 counterexample: the claim says the winner is chosen among the
numeric-range OVERRIDE candidates only, but the source pools the exact
match rows with the override rows before the gender selection; with an
exact gender match on the exact key, the resolver returns the exact-key
row, not the best gender match among the override candidates. -/
theorem C3_counterexample :
    findBestReferenceMatch
      { LBTEST := some "abc", LBORRES := some "5", Gender := some "female" }
      abcMap = some e1Row ∧
    (overrideNumericOptions abcMap (abcMap.map (·.1)) "abc").map (·.2) =
      [e2Row] ∧
    selectBestGenderMatch [e2Row] (some "female") = some e2Row ∧
    e1Row ≠ e2Row := by
  decide

/-- C3 (amended): in the exact-match strategy, when the observation value
contains a digit, override keys exist, some override row has a
numeric-looking range, and the test name does not contain "glucose" (so the
glucose special case cannot preempt), the resolver returns the best gender
match among ALL numeric-range candidates — the exact-match rows pooled
before the override rows — rather than among the override rows alone. -/
theorem C3_numeric_override_amended (p : PatientDataRow) (m : RefMap)
    (t em : String) (hT : p.LBTEST = some t) (htne : trimS t ≠ "")
    (hEm : (m.map (·.1)).find?
      (fun k => lowerS k == lowerS (trimS t)) = some em)
    (hNg : containsS (lowerS (trimS t)) "glucose" = false)
    (hAlt : ∃ a ∈ altsOf (m.map (·.1)) (lowerS (trimS t)),
      ∃ l, mapGet m a = some l ∧ ∃ ref ∈ l, isNumericRange ref.NormalRange = true)
    (hD : hasDigitS ((p.LBORRES).getD "") = true) :
    ∃ r, findBestReferenceMatch p m = some r ∧
      selectBestGenderMatch
        ((numericOptionsOf m em (m.map (·.1)) (lowerS (trimS t))).map (·.2))
        (p.Gender.map (fun s => lowerS (trimS s))) = some r := by
  obtain ⟨a, ha, l, hla, ref, href, hnum⟩ := hAlt
  have haE : (altsOf (m.map (·.1)) (lowerS (trimS t))).isEmpty = false :=
    isEmpty_false_of_mem ha
  have hoptmem : (a, ref) ∈
      numericOptionsOf m em (m.map (·.1)) (lowerS (trimS t)) := by
    unfold numericOptionsOf
    refine List.mem_filter.mpr ⟨?_, hnum⟩
    rw [List.mem_append]
    exact Or.inr (concatOptions_of_mem m _ a (a, ref) ha
      (optionsFor_of_mem m a l ref hla href))
  have hpoolE : (numericOptionsOf m em (m.map (·.1))
      (lowerS (trimS t))).isEmpty = false := isEmpty_false_of_mem hoptmem
  have hpoolne : (numericOptionsOf m em (m.map (·.1))
      (lowerS (trimS t))).map (·.2) ≠ [] := by
    intro hnil
    have hmm : ref ∈ (numericOptionsOf m em (m.map (·.1))
        (lowerS (trimS t))).map (·.2) :=
      List.mem_map.mpr ⟨(a, ref), hoptmem, rfl⟩
    exact absurd (hnil ▸ hmm) (List.not_mem_nil _)
  obtain ⟨r, hsel, _⟩ := selectBest_isSome _
    (p.Gender.map (fun s => lowerS (trimS s))) hpoolne
  have hnume : numericEarly m (p.Gender.map (fun s => lowerS (trimS s))) em
      (m.map (·.1)) (lowerS (trimS t)) ((p.LBORRES).getD "") =
      some (some r) := by
    simp only [numericEarly, hD, hpoolE, Bool.not_false, Bool.and_self,
      if_true, hsel]
  have hglf : ((lowerS (trimS t)) == "glucose" ||
      containsS (lowerS (trimS t)) "glucose") = false := by
    rw [hNg]
    cases hbe : lowerS (trimS t) == "glucose" with
    | false => rfl
    | true =>
      have heq := eq_of_beq hbe
      rw [heq] at hNg
      exact absurd hNg (by decide)
  have hgE : glucoseEarly m (p.Gender.map (fun s => lowerS (trimS s)))
      (altsOf (m.map (·.1)) (lowerS (trimS t))) (lowerS (trimS t)) = none := by
    unfold glucoseEarly
    rw [if_neg (by simp [hglf])]
  have htne' : (trimS t == "") = false := by
    cases hbe : trimS t == "" with
    | false => rfl
    | true => exact absurd (eq_of_beq hbe) htne
  have hbr : exactBranch m (p.Gender.map (fun s => lowerS (trimS s)))
      (m.map (·.1)) (lowerS (trimS t)) em ((p.LBORRES).getD "") = some r := by
    simp only [exactBranch, haE, Bool.false_eq_true, if_false, hgE, hnume,
      orElseRes]
  refine ⟨r, ?_, hsel⟩
  simp only [findBestReferenceMatch, hT, htne', Bool.false_eq_true, if_false,
    hEm, hbr]

/-- C3 witness: the amended numeric-preference rule at a concrete index
with one exact key and one longer override key, both with numeric ranges. -/
theorem C3_numeric_override_amended_witness :
    (trimS "abc" ≠ "" ∧
     (abcMap.map (·.1)).find?
       (fun k => lowerS k == lowerS (trimS "abc")) = some "abc") ∧
    (∃ r, findBestReferenceMatch
        { LBTEST := some "abc", LBORRES := some "5", Gender := some "female" }
        abcMap = some r ∧
      selectBestGenderMatch
        ((numericOptionsOf abcMap "abc" (abcMap.map (·.1))
          (lowerS (trimS "abc"))).map (·.2)) (some "female") = some r) :=
  ⟨⟨by decide, by decide⟩,
   C3_numeric_override_amended
     { LBTEST := some "abc", LBORRES := some "5", Gender := some "female" }
     abcMap "abc" "abc" rfl (by decide) (by decide) (by decide)
     ⟨"abcd", by decide, [e2Row], by decide, e2Row, by decide, by decide⟩
     (by decide)⟩

/-! ## Claim C10 -/

/-- C10: whenever the resolver returns a row, that row is one of the rows
stored in the index under some key; the resolver never fabricates an entry.
The embedding is a pure function over an immutable association list, so the
index is unchanged and entries are returned unmodified by construction. -/
theorem C10_resolver_conservative (p : PatientDataRow) (m : RefMap)
    (r : ReferenceDataRow) (h : findBestReferenceMatch p m = some r) :
    ∃ e ∈ m, r ∈ e.2 :=
  findBestReferenceMatch_mem p m r h

/-- C10 witness: the concrete glucose resolution returns a stored row. -/
theorem C10_resolver_conservative_witness :
    findBestReferenceMatch
      { LBTEST := some "Glucose", LBORRES := some "11.06", Gender := some "Male" }
      glucoseMap = some fRow ∧
    ∃ e ∈ glucoseMap, fRow ∈ e.2 :=
  ⟨by decide,
   C10_resolver_conservative
     { LBTEST := some "Glucose", LBORRES := some "11.06", Gender := some "Male" }
     glucoseMap fRow (by decide)⟩
